import Mathlib

/-!
# Verification of the PasswordEntry credential vault

A shallow embedding of `src/PasswordManager.rs` in Lean 4.  Rust strings are
embedded as their UTF-8 byte sequences (`List Nat`, each element `< 256`);
the concrete strings appearing in the development are ASCII, where the byte
sequence coincides with the sequence of character codes.  A Rust function
that can panic is embedded with an `Option` result, `none` standing for a
panic; the source has no error-return channel, so `none` is the only
non-normal outcome.
-/

namespace PasswordVault

/-- The UTF-8 bytes of an ASCII string (every concrete string used in this
development is ASCII, where code points and UTF-8 bytes coincide). -/
def strBytes (s : String) : List Nat :=
  s.toList.map Char.toNat

/-- ASCII code of the lowercase hex digit for a nibble `n < 16`, as produced
by Rust `format!("\x7b:02x\x7d", b)`. -/
def hexDigitByte (n : Nat) : Nat :=
  if n < 10 then 48 + n else 87 + n

/-- The two lowercase hex digits Rust `format!("\x7b:02x\x7d", b)` prints for a
byte `b < 256` (a `u8` in the source). -/
def byteToHexPair (b : Nat) : List Nat :=
  [hexDigitByte (b / 16), hexDigitByte (b % 16)]

/-- Numeric value of one ASCII hex digit, as accepted by Rust
`u8::from_str_radix(_, 16)`: `0`-`9`, `a`-`f`, `A`-`F`. -/
def hexDigitVal (c : Nat) : Option Nat :=
  if 48 ≤ c ∧ c ≤ 57 then some (c - 48)
  else if 97 ≤ c ∧ c ≤ 102 then some (c - 87)
  else if 65 ≤ c ∧ c ≤ 70 then some (c - 55)
  else none

/-- `u8::from_str_radix(s, 16)` on a two-byte slice `[c1, c2]`: two hex
digits, or a leading ASCII `+` sign (accepted by Rust for unsigned types)
followed by one hex digit.  A `-` sign is rejected for `u8`. -/
def parseHexByte (c1 c2 : Nat) : Option Nat :=
  match hexDigitVal c1, hexDigitVal c2 with
  | some d1, some d2 => some (d1 * 16 + d2)
  | _, _ => if c1 = 43 then hexDigitVal c2 else none

/-- Rust `str::is_char_boundary i` on a byte sequence: true at the ends and
at any index whose byte is not a UTF-8 continuation byte. -/
def isCharBoundary (s : List Nat) (i : Nat) : Bool :=
  if i = 0 then true
  else if i = s.length then true
  else if s.length < i then false
  else decide (¬ (128 ≤ s.getD i 0 ∧ s.getD i 0 < 192))

/-- The key byte `key_bytes[j % key_bytes.len()]` used for the `j`-th
plaintext byte (only meaningful for a non-empty key). -/
def keyAt (key : List Nat) (j : Nat) : Nat :=
  key.getD (j % key.length) 0

/-- Loop body of `simple_encrypt`: the `j`-th byte onwards of the plaintext,
XOR-combined with the repeating key stream and hex-formatted.  An empty key
makes Rust panic on `i % key_bytes.len()` at every iteration, modelled as
`none`. -/
def simple_encrypt_go (key : List Nat) : List Nat → Nat → Option (List Nat)
  | [], _ => some []
  | b :: rest, j =>
    if key.length = 0 then none
    else
      match simple_encrypt_go key rest (j + 1) with
      | none => none
      | some tail => some (byteToHexPair (b ^^^ keyAt key j) ++ tail)

/-- `PasswordManager::simple_encrypt`: XOR each plaintext byte with the
repeating key stream and emit two lowercase hex digits per byte.  `none`
models the Rust panic on an empty key (remainder by zero). -/
def simple_encrypt (text key : List Nat) : Option (List Nat) :=
  simple_encrypt_go key text 0

/-- The index sequence of Rust `(0..len).step_by(2)`. -/
def stepIndices (len : Nat) : List Nat :=
  (List.range ((len + 1) / 2)).map (fun t => 2 * t)

/-- Loop body of `simple_decrypt`, iterating over the index list of
`(0..encrypted.len()).step_by(2)`.  At index `i` the source slices
`&encrypted[i..i+2]`, which panics (`none`) unless both `i` and `i + 2` are
char boundaries within the string; a slice that does not parse as hex is
skipped; a parsed byte is XORed with `key_bytes[(i/2) % key_bytes.len()]`,
which panics on an empty key. -/
def simple_decrypt_go (enc key : List Nat) : List Nat → List Nat → Option (List Nat)
  | [], acc => some acc
  | i :: rest, acc =>
    if isCharBoundary enc i ∧ isCharBoundary enc (i + 2) then
      match parseHexByte (enc.getD i 0) (enc.getD (i + 1) 0) with
      | some b =>
        if key.length = 0 then none
        else simple_decrypt_go enc key rest (acc ++ [b ^^^ keyAt key (i / 2)])
      | none => simple_decrypt_go enc key rest acc
    else none

/-- `PasswordManager::simple_decrypt`: parse two-hex-digit groups at even
byte offsets, XOR each with the repeating key stream and collect the bytes.
The result models the `Vec<u8>` the source builds; the source finally
converts it with `String::from_utf8_lossy`, which is the identity on valid
UTF-8.  `none` models a Rust panic (out-of-range or non-boundary slice, or
empty key at a parsed group). -/
def simple_decrypt (enc key : List Nat) : Option (List Nat) :=
  simple_decrypt_go enc key (stepIndices enc.length) []

/-- The record stored per service: `struct PasswordEntry` of the source. -/
structure PasswordEntry where
  service : List Nat
  username : List Nat
  password : List Nat
deriving DecidableEq

/-- The `entries: HashMap<String, PasswordEntry>` field, embedded as an
association list with distinct keys (the `HashMap` invariant); iteration
order is not semantically meaningful in the source. -/
abbrev Entries := List (List Nat × PasswordEntry)

/-- `HashMap::insert`: replace the value bound to an existing key, else add
the binding. -/
def insertEntry (m : Entries) (k : List Nat) (v : PasswordEntry) : Entries :=
  match m with
  | [] => [(k, v)]
  | (k1, v1) :: rest =>
    if k1 = k then (k, v) :: rest else (k1, v1) :: insertEntry rest k v

/-- `HashMap::get`: the value bound to `k`, if any. -/
def lookupEntry (m : Entries) (k : List Nat) : Option PasswordEntry :=
  match m with
  | [] => none
  | (k1, v1) :: rest => if k1 = k then some v1 else lookupEntry rest k

/-- Number of bindings a key has in the map (one for a well-formed
`HashMap`). -/
def countKey (m : Entries) (k : List Nat) : Nat :=
  (m.filter (fun p => p.1 = k)).length

/-- `PasswordManager::add_entry`: build a `PasswordEntry` whose `service`
field clones the key and insert it under the service name. -/
def add_entry (m : Entries) (service username password : List Nat) : Entries :=
  insertEntry m service ⟨service, username, password⟩

/-- `PasswordManager::list_services`: the lines printed — `"No entries
saved"` on an empty store, else a header followed by one
`"\x7bservice\x7d - \x7busername\x7d"` line per entry. -/
def list_services (m : Entries) : List (List Nat) :=
  if m.isEmpty then [strBytes "No entries saved"]
  else strBytes "=== Saved Services ===" ::
    m.map (fun p => p.1 ++ strBytes " - " ++ p.2.username)

/-- `PasswordManager::save_to_file`: one line per entry,
`service|username|encrypted_password`, the password run through
`simple_encrypt` with the master password as key.  The file is modelled as
its list of lines (`writeln!` terminates each line); `none` models a panic
inside `simple_encrypt`. -/
def save_to_file (m : Entries) (masterPassword : List Nat) : Option (List (List Nat)) :=
  match m with
  | [] => some []
  | (service, e) :: rest =>
    match simple_encrypt e.password masterPassword with
    | none => none
    | some enc =>
      match save_to_file rest masterPassword with
      | none => none
      | some lines => some ((service ++ [124] ++ e.username ++ [124] ++ enc) :: lines)

/-- Rust `str::split(d)` on a byte sequence: the groups between delimiter
bytes; an empty input yields one empty group, a trailing delimiter a
trailing empty group. -/
def splitByte (d : Nat) : List Nat → List (List Nat)
  | [] => [[]]
  | b :: rest =>
    if b = d then [] :: splitByte d rest
    else
      match splitByte d rest with
      | [] => [[b]]
      | g :: gs => (b :: g) :: gs

/-- `PasswordManager::load_from_file` on the lines of an existing readable
file: split each line on `|` (byte 124); a line with exactly three fields is
decrypted and inserted into the entries map, any other line is ignored.
`none` models a panic inside `simple_decrypt`. -/
def load_from_file (lines : List (List Nat)) (masterPassword : List Nat)
    (m : Entries) : Option Entries :=
  match lines with
  | [] => some m
  | line :: rest =>
    let parts := splitByte 124 line
    if parts.length = 3 then
      match simple_decrypt (parts.getD 2 []) masterPassword with
      | none => none
      | some pw =>
        load_from_file rest masterPassword
          (insertEntry m (parts.getD 0 []) ⟨parts.getD 0 [], parts.getD 1 [], pw⟩)
    else load_from_file rest masterPassword m

/-- A vault-file line `load_from_file` accepts: it splits on `|` into
exactly three fields. -/
def wellFormedLine (line : List Nat) : Bool :=
  (splitByte 124 line).length == 3

/-- The fixed alphabet `CHARSET` of `generate_password`: uppercase,
lowercase, digits and the symbols `!@#$%^&*` (70 bytes). -/
def CHARSET : List Nat :=
  strBytes "ABCDEFGHIJKLMNOPQRSTUVWXYZabcdefghijklmnopqrstuvwxyz0123456789!@#$%^&*"

/-- `PasswordManager::generate_password`: `length` characters, each indexed
from `CHARSET` by a fresh draw of `rng.gen_range(0..CHARSET.len())`.  The
random number generator is embedded as the sequence `draws` of its values;
`gen_range` guarantees each draw is `< CHARSET.length`. -/
def generate_password (length : Nat) (draws : Nat → Nat) : List Nat :=
  (List.range length).map (fun i => CHARSET.getD (draws i) 0)

/-! ## SHA-256 (the `crypto::sha2::Sha256` digest used by `hash_password`)

The `rust-crypto` crate implements FIPS 180-4 SHA-256; it is embedded here
over `Nat`, with 32-bit words kept below `2^32` by explicit reduction. -/

/-- Truncation to a 32-bit word. -/
def w32 (n : Nat) : Nat := n % 4294967296

/-- 32-bit right rotation. -/
def rotr (n x : Nat) : Nat := w32 ((x >>> n) ||| (x <<< (32 - n)))

/-- SHA-256 `Ch(x,y,z) = (x AND y) XOR (NOT x AND z)`; 32-bit complement is
XOR with `2^32 - 1`. -/
def shaCh (x y z : Nat) : Nat := (x &&& y) ^^^ ((4294967295 ^^^ x) &&& z)

/-- SHA-256 `Maj(x,y,z)`. -/
def shaMaj (x y z : Nat) : Nat := (x &&& y) ^^^ (x &&& z) ^^^ (y &&& z)

/-- SHA-256 `Σ₀`. -/
def bigSigma0 (x : Nat) : Nat := rotr 2 x ^^^ rotr 13 x ^^^ rotr 22 x

/-- SHA-256 `Σ₁`. -/
def bigSigma1 (x : Nat) : Nat := rotr 6 x ^^^ rotr 11 x ^^^ rotr 25 x

/-- SHA-256 `σ₀`. -/
def smallSigma0 (x : Nat) : Nat := rotr 7 x ^^^ rotr 18 x ^^^ (x >>> 3)

/-- SHA-256 `σ₁`. -/
def smallSigma1 (x : Nat) : Nat := rotr 17 x ^^^ rotr 19 x ^^^ (x >>> 10)

/-- The 64 SHA-256 round constants of FIPS 180-4 (decimal). -/
def shaK : List Nat :=
  [1116352408, 1899447441, 3049323471, 3921009573, 961987163, 1508970993,
   2453635748, 2870763221, 3624381080, 310598401, 607225278, 1426881987,
   1925078388, 2162078206, 2614888103, 3248222580, 3835390401, 4022224774,
   264347078, 604807628, 770255983, 1249150122, 1555081692, 1996064986,
   2554220882, 2821834349, 2952996808, 3210313671, 3336571891, 3584528711,
   113926993, 338241895, 666307205, 773529912, 1294757372, 1396182291,
   1695183700, 1986661051, 2177026350, 2456956037, 2730485921, 2820302411,
   3259730800, 3345764771, 3516065817, 3600352804, 4094571909, 275423344,
   430227734, 506948616, 659060556, 883997877, 958139571, 1322822218,
   1537002063, 1747873779, 1955562222, 2024104815, 2227730452, 2361852424,
   2428436474, 2756734187, 3204031479, 3329325298]

/-- The SHA-256 initial hash value of FIPS 180-4 (decimal). -/
def shaH0 : List Nat :=
  [1779033703, 3144134277, 1013904242, 2773480762,
   1359893119, 2600822924, 528734635, 1541459225]

/-- SHA-256 padding: append `0x80`, zeros to 56 mod 64 bytes, then the
64-bit big-endian bit length of the message. -/
def shaPad (msg : List Nat) : List Nat :=
  let L := msg.length
  let zeros := List.replicate ((119 - L % 64) % 64) 0
  let lenBytes := [56, 48, 40, 32, 24, 16, 8, 0].map (fun s => (8 * L) >>> s % 256)
  msg ++ 128 :: zeros ++ lenBytes

/-- The 64-byte blocks of a padded message. -/
def shaBlocks (padded : List Nat) : List (List Nat) :=
  (List.range (padded.length / 64)).map (fun i => ((padded.drop (64 * i)).take 64))

/-- Extend a message schedule by `steps` further words. -/
def shaExtend (w : List Nat) : Nat → List Nat
  | 0 => w
  | steps + 1 =>
    let n := w.length
    let next := w32 (smallSigma1 (w.getD (n - 2) 0) + w.getD (n - 7) 0 +
      smallSigma0 (w.getD (n - 15) 0) + w.getD (n - 16) 0)
    shaExtend (w ++ [next]) steps

/-- The 64-word message schedule of one block: 16 big-endian words of the
block extended to 64. -/
def shaSchedule (block : List Nat) : List Nat :=
  let w16 := (List.range 16).map (fun t =>
    block.getD (4 * t) 0 <<< 24 ||| block.getD (4 * t + 1) 0 <<< 16 |||
    block.getD (4 * t + 2) 0 <<< 8 ||| block.getD (4 * t + 3) 0)
  shaExtend w16 48

/-- One SHA-256 compression round on the working variables `[a..h]`. -/
def shaRound (s : List Nat) (k w : Nat) : List Nat :=
  let a := s.getD 0 0
  let b := s.getD 1 0
  let c := s.getD 2 0
  let d := s.getD 3 0
  let e := s.getD 4 0
  let f := s.getD 5 0
  let g := s.getD 6 0
  let h := s.getD 7 0
  let t1 := w32 (h + bigSigma1 e + shaCh e f g + k + w)
  let t2 := w32 (bigSigma0 a + shaMaj a b c)
  [w32 (t1 + t2), a, b, c, w32 (d + t1), e, f, g]

/-- Compress one 64-byte block into the running hash state. -/
def shaCompress (h : List Nat) (block : List Nat) : List Nat :=
  let s := (shaK.zip (shaSchedule block)).foldl (fun s kw => shaRound s kw.1 kw.2) h
  (h.zip s).map (fun p => w32 (p.1 + p.2))

/-- SHA-256 of a byte sequence, as the eight 32-bit hash words. -/
def sha256 (msg : List Nat) : List Nat :=
  (shaBlocks (shaPad msg)).foldl shaCompress shaH0

/-- The lowercase-hex rendering `result_str` produces: eight big-endian hex
characters per hash word. -/
def wordToHex (w : Nat) : List Nat :=
  (List.range 8).map (fun i => hexDigitByte ((w >>> (28 - 4 * i)) % 16))

/-- `PasswordManager::hash_password`: lowercase hex digest of the SHA-256 of
the password bytes. -/
def hash_password (password : List Nat) : List Nat :=
  (sha256 password).flatMap wordToHex

/-- The `PasswordManager` struct fields relevant to master-password
verification. -/
structure PasswordManager where
  entries : Entries
  master_password_hash : List Nat
  filename : List Nat
deriving DecidableEq

/-- `PasswordManager::verify_master_password`: hash the supplied password
and compare with the stored digest. -/
def verify_master_password (mgr : PasswordManager) (password : List Nat) : Bool :=
  hash_password password == mgr.master_password_hash

/-- Pure form of the `simple_encrypt` loop for a non-empty key (where the
loop cannot panic). -/
def encBytes (key : List Nat) : List Nat → Nat → List Nat
  | [], _ => []
  | b :: rest, j => byteToHexPair (b ^^^ keyAt key j) ++ encBytes key rest (j + 1)

/-- The even offsets `2*j, 2*(j+1), …` of `n` consecutive two-hex-digit
groups starting at group `j`. -/
def idxList (j n : Nat) : List Nat :=
  (List.range n).map (fun t => 2 * (j + t))

/-! ## Supporting lemmas -/

theorem xor_lt_256 {a b : Nat} (ha : a < 256) (hb : b < 256) : a ^^^ b < 256 :=
  Nat.bitwise_lt_two_pow (n := 8) ha hb

theorem keyAt_lt (key : List Nat) (hkey : ∀ k ∈ key, k < 256) (j : Nat) :
    keyAt key j < 256 := by
  unfold keyAt
  rcases Nat.lt_or_ge (j % key.length) key.length with h | h
  · rw [List.getD_eq_getElem _ _ h]
    exact hkey _ (List.getElem_mem h)
  · rw [List.getD_eq_default _ _ h]
    omega

theorem hexDigitByte_lt (n : Nat) (h : n < 16) : hexDigitByte n < 128 := by
  unfold hexDigitByte
  split <;> omega

theorem hexDigitVal_hexDigitByte (n : Nat) (h : n < 16) :
    hexDigitVal (hexDigitByte n) = some n := by
  rcases Nat.lt_or_ge n 10 with h10 | h10
  · have hb : hexDigitByte n = 48 + n := by
      unfold hexDigitByte; rw [if_pos h10]
    rw [hb]
    unfold hexDigitVal
    rw [if_pos (by omega)]
    congr 1
    omega
  · have hb : hexDigitByte n = 87 + n := by
      unfold hexDigitByte; rw [if_neg (by omega)]
    rw [hb]
    unfold hexDigitVal
    rw [if_neg (by omega), if_pos (by omega)]
    congr 1
    omega

theorem parseHexByte_pair (x : Nat) (hx : x < 256) :
    parseHexByte (hexDigitByte (x / 16)) (hexDigitByte (x % 16)) = some x := by
  unfold parseHexByte
  rw [hexDigitVal_hexDigitByte _ (by omega), hexDigitVal_hexDigitByte _ (by omega)]
  simp only []
  congr 1
  omega

theorem simple_encrypt_go_eq (key : List Nat) (hk : key ≠ []) :
    ∀ (text : List Nat) (j : Nat),
      simple_encrypt_go key text j = some (encBytes key text j) := by
  intro text
  induction text with
  | nil => intro j; rfl
  | cons b rest ih =>
    intro j
    have hlen : ¬ key.length = 0 := by
      simpa [List.length_eq_zero] using hk
    simp only [simple_encrypt_go, encBytes, if_neg hlen, ih (j + 1)]

theorem encBytes_length (key : List Nat) :
    ∀ (text : List Nat) (j : Nat), (encBytes key text j).length = 2 * text.length := by
  intro text
  induction text with
  | nil => intro j; rfl
  | cons b rest ih =>
    intro j
    simp only [encBytes, byteToHexPair, List.length_append, List.length_cons,
      List.length_nil, List.length_cons, ih (j + 1)]
    omega

theorem encBytes_mem_lt (key : List Nat) (hkey : ∀ k ∈ key, k < 256) :
    ∀ (text : List Nat) (j : Nat), (∀ b ∈ text, b < 256) →
      ∀ c ∈ encBytes key text j, c < 128 := by
  intro text
  induction text with
  | nil => intro j _ c hc; simp [encBytes] at hc
  | cons b rest ih =>
    intro j htext c hc
    have hx : b ^^^ keyAt key j < 256 :=
      xor_lt_256 (htext b (List.mem_cons_self _ _)) (keyAt_lt key hkey j)
    simp only [encBytes] at hc
    rcases List.mem_append.mp hc with h | h
    · simp only [byteToHexPair, List.mem_cons, List.not_mem_nil, or_false] at h
      rcases h with h | h
      · subst h; exact hexDigitByte_lt _ (by omega)
      · subst h; exact hexDigitByte_lt _ (by omega)
    · exact ih (j + 1) (fun y hy => htext y (List.mem_cons_of_mem _ hy)) c h

theorem isCharBoundary_of (s : List Nat) (i : Nat)
    (h : i = 0 ∨ i = s.length ∨ (i < s.length ∧ s.getD i 0 < 128)) :
    isCharBoundary s i = true := by
  unfold isCharBoundary
  rcases h with h | h | ⟨h1, h2⟩
  · simp [h]
  · simp [h]
  · by_cases h0 : i = 0
    · simp [h0]
    · rw [if_neg h0, if_neg (by omega), if_neg (by omega)]
      simp only [decide_eq_true_eq]
      omega

theorem idxList_succ (j n : Nat) :
    idxList j (n + 1) = 2 * j :: idxList (j + 1) n := by
  unfold idxList
  rw [List.range_succ_eq_map]
  simp only [List.map_cons, Nat.add_zero, List.map_map]
  refine congrArg₂ _ rfl ?_
  apply List.map_congr_left
  intro t _
  simp only [Function.comp_apply]
  omega

theorem stepIndices_even (n : Nat) : stepIndices (2 * n) = idxList 0 n := by
  unfold stepIndices idxList
  have h : (2 * n + 1) / 2 = n := by omega
  rw [h]
  apply List.map_congr_left
  intro t _
  omega

theorem simple_decrypt_go_encBytes (key : List Nat) (hk : key ≠ [])
    (hkey : ∀ k ∈ key, k < 256) :
    ∀ (text : List Nat), (∀ b ∈ text, b < 256) →
    ∀ (j : Nat) (pre acc : List Nat), pre.length = 2 * j →
      simple_decrypt_go (pre ++ encBytes key text j) key (idxList j text.length) acc
        = some (acc ++ text) := by
  intro text
  induction text with
  | nil =>
    intro _ j pre acc _
    simp [idxList, encBytes, simple_decrypt_go]
  | cons b rest ih =>
    intro htext j pre acc hpre
    have hklen : ¬ key.length = 0 := by simpa [List.length_eq_zero] using hk
    have hb : b < 256 := htext b (List.mem_cons_self _ _)
    have hrest : ∀ y ∈ rest, y < 256 := fun y hy => htext y (List.mem_cons_of_mem _ hy)
    have hx : b ^^^ keyAt key j < 256 := xor_lt_256 hb (keyAt_lt key hkey j)
    have hcons : encBytes key (b :: rest) j
        = byteToHexPair (b ^^^ keyAt key j) ++ encBytes key rest (j + 1) := rfl
    have hfull : pre ++ encBytes key (b :: rest) j
        = (pre ++ byteToHexPair (b ^^^ keyAt key j)) ++ encBytes key rest (j + 1) := by
      rw [hcons, List.append_assoc]
    have hpairlen : (byteToHexPair (b ^^^ keyAt key j)).length = 2 := rfl
    have hmidlen : (pre ++ byteToHexPair (b ^^^ keyAt key j)).length = 2 * j + 2 := by
      rw [List.length_append, hpre, hpairlen]
    have hfullen : (pre ++ encBytes key (b :: rest) j).length
        = 2 * j + 2 + 2 * rest.length := by
      rw [hfull, List.length_append, hmidlen, encBytes_length]
    have hget0 : (pre ++ encBytes key (b :: rest) j).getD (2 * j) 0
        = hexDigitByte ((b ^^^ keyAt key j) / 16) := by
      rw [List.getD_append_right _ _ _ _ (by omega), hpre, hcons]
      have h2 : 2 * j - 2 * j = 0 := by omega
      rw [h2, List.getD_append _ _ _ _ (by rw [hpairlen]; omega)]
      rfl
    have hget1 : (pre ++ encBytes key (b :: rest) j).getD (2 * j + 1) 0
        = hexDigitByte ((b ^^^ keyAt key j) % 16) := by
      rw [List.getD_append_right _ _ _ _ (by omega), hpre, hcons]
      have h2 : 2 * j + 1 - 2 * j = 1 := by omega
      rw [h2, List.getD_append _ _ _ _ (by rw [hpairlen]; omega)]
      rfl
    have hbd0 : isCharBoundary (pre ++ encBytes key (b :: rest) j) (2 * j) = true := by
      apply isCharBoundary_of
      right; right
      refine ⟨by omega, ?_⟩
      rw [hget0]
      exact hexDigitByte_lt _ (by omega)
    have hbd2 : isCharBoundary (pre ++ encBytes key (b :: rest) j) (2 * j + 2) = true := by
      apply isCharBoundary_of
      cases rest with
      | nil =>
        right; left
        rw [hfullen]
        simp
      | cons r rest2 =>
        right; right
        refine ⟨by rw [hfullen]; simp, ?_⟩
        rw [hfull, List.getD_append_right _ _ _ _ (by omega), hmidlen]
        have h2 : 2 * j + 2 - (2 * j + 2) = 0 := by omega
        rw [h2]
        have hlen2 : 0 < (encBytes key (r :: rest2) (j + 1)).length := by
          rw [encBytes_length]; simp
        rw [List.getD_eq_getElem _ _ hlen2]
        exact encBytes_mem_lt key hkey _ _ hrest _ (List.getElem_mem hlen2)
    have hparse : parseHexByte ((pre ++ encBytes key (b :: rest) j).getD (2 * j) 0)
        ((pre ++ encBytes key (b :: rest) j).getD (2 * j + 1) 0)
        = some (b ^^^ keyAt key j) := by
      rw [hget0, hget1]
      exact parseHexByte_pair _ hx
    have hdiv : 2 * j / 2 = j := by omega
    have hidx : (b :: rest).length = rest.length + 1 := rfl
    rw [hidx, idxList_succ]
    simp only [simple_decrypt_go]
    rw [if_pos ⟨hbd0, hbd2⟩, hparse]
    simp only [if_neg hklen]
    rw [hdiv, Nat.xor_cancel_right]
    rw [hfull]
    have := ih hrest (j + 1) (pre ++ byteToHexPair (b ^^^ keyAt key j)) (acc ++ [b])
      (by rw [hmidlen]; omega)
    rw [this, List.append_assoc]
    rfl

theorem getD_lt_128 (l : List Nat) (h : ∀ b ∈ l, b < 128) (i : Nat)
    (hi : i < l.length) : l.getD i 0 < 128 := by
  rw [List.getD_eq_getElem _ _ hi]
  exact h _ (List.getElem_mem hi)

theorem simple_decrypt_go_isSome (enc key : List Nat) (hk : key ≠ []) :
    ∀ (idxs acc : List Nat),
      (∀ i ∈ idxs, isCharBoundary enc i = true ∧ isCharBoundary enc (i + 2) = true) →
      (simple_decrypt_go enc key idxs acc).isSome = true := by
  intro idxs
  induction idxs with
  | nil => intro acc _; rfl
  | cons i rest ih =>
    intro acc hidx
    have hklen : ¬ key.length = 0 := by simpa [List.length_eq_zero] using hk
    simp only [simple_decrypt_go]
    rw [if_pos (hidx i (List.mem_cons_self _ _))]
    have hrest : ∀ x ∈ rest, isCharBoundary enc x = true ∧ isCharBoundary enc (x + 2) = true :=
      fun x hx => hidx x (List.mem_cons_of_mem _ hx)
    split
    · rw [if_neg hklen]
      exact ih _ hrest
    · exact ih _ hrest

/-! ## The claims -/

/-- C1: for every non-empty key and every byte string (embedding a Rust
string), decrypting the result of encrypting under the same key gives the
original text back: the keyed transform round-trips. -/
theorem claim_C1_encrypt_decrypt_roundtrip (text key : List Nat) (hk : key ≠ [])
    (htext : ∀ b ∈ text, b < 256) (hkey : ∀ k ∈ key, k < 256) :
    (simple_encrypt text key).bind (fun enc => simple_decrypt enc key) = some text := by
  rw [simple_encrypt, simple_encrypt_go_eq key hk]
  show simple_decrypt (encBytes key text 0) key = some text
  rw [simple_decrypt, encBytes_length, stepIndices_even]
  have h := simple_decrypt_go_encBytes key hk hkey text htext 0 [] [] rfl
  simpa using h

/-- Witness for C1 at plaintext `"hi"` and key `"k"`. -/
theorem claim_C1_witness :
    (simple_encrypt (strBytes "hi") (strBytes "k")).bind
      (fun enc => simple_decrypt enc (strBytes "k")) = some (strBytes "hi") :=
  claim_C1_encrypt_decrypt_roundtrip (strBytes "hi") (strBytes "k")
    (by decide) (by decide) (by decide)

/-- C2 counterexample: on the odd-length input `"abc"` with the non-empty
key `"k"`, `simple_decrypt` panics (the slice `[2..4]` is out of range), so
it is not true that decoding never fails for every input. -/
theorem claim_C2_counterexample :
    simple_decrypt (strBytes "abc") (strBytes "k") = none := by decide

/-- C2 (amended): for every non-empty key, `simple_decrypt` never panics on
an input of even byte length whose bytes are ASCII: two-character groups
that are not valid hex are skipped and decoding of the remaining groups
completes.  (An odd-length input panics on the final truncated group.) -/
theorem claim_C2_even_ascii_never_panics (enc key : List Nat) (hk : key ≠ [])
    (heven : enc.length % 2 = 0) (hascii : ∀ b ∈ enc, b < 128) :
    (simple_decrypt enc key).isSome = true := by
  rw [simple_decrypt]
  apply simple_decrypt_go_isSome enc key hk
  intro i hi
  simp only [stepIndices, List.mem_map, List.mem_range] at hi
  obtain ⟨t, ht, rfl⟩ := hi
  have h2t : 2 * t < enc.length := by omega
  constructor
  · exact isCharBoundary_of _ _ (Or.inr (Or.inr ⟨h2t, getD_lt_128 enc hascii _ h2t⟩))
  · rcases Nat.lt_or_ge (2 * t + 2) enc.length with hlt | hge
    · exact isCharBoundary_of _ _ (Or.inr (Or.inr ⟨hlt, getD_lt_128 enc hascii _ hlt⟩))
    · exact isCharBoundary_of _ _ (Or.inr (Or.inl (by omega)))

/-- Witness for the amended C2 at the even-length input `"zz!a"` (whose
groups are all malformed hex) and key `"k"`. -/
theorem claim_C2_witness :
    (simple_decrypt (strBytes "zz!a") (strBytes "k")).isSome = true :=
  claim_C2_even_ascii_never_panics (strBytes "zz!a") (strBytes "k")
    (by decide) (by decide) (by decide)

/-- C3 counterexample: encrypting the non-empty plaintext `"a"` under the
zero-length key panics (remainder by zero on `i % key_bytes.len()`); no
InvalidKey error value is ever produced — the code has no error channel at
all. -/
theorem claim_C3_counterexample : simple_encrypt (strBytes "a") [] = none := by
  decide

/-- C3 (amended): with a zero-length key, `simple_encrypt` panics on every
non-empty plaintext instead of failing fast with an InvalidKey error. -/
theorem claim_C3_empty_key_panics (text : List Nat) (ht : text ≠ []) :
    simple_encrypt text [] = none := by
  cases text with
  | nil => exact absurd rfl ht
  | cons b rest => rfl

/-- Witness for the amended C3 at plaintext `"pw"`. -/
theorem claim_C3_witness : simple_encrypt (strBytes "pw") [] = none :=
  claim_C3_empty_key_panics (strBytes "pw") (by decide)

/-- C4: saving a store holding the single entry (service `"github"`,
username `"alice"`, password `"Secr3t!"`) with key `"masterpw"` and loading
the resulting file with the same key reproduces the identical record. -/
theorem claim_C4_save_load_roundtrip :
    (save_to_file [(strBytes "github",
        ⟨strBytes "github", strBytes "alice", strBytes "Secr3t!"⟩)]
        (strBytes "masterpw")).bind
      (fun lines => load_from_file lines (strBytes "masterpw") [])
    = some [(strBytes "github",
        ⟨strBytes "github", strBytes "alice", strBytes "Secr3t!"⟩)] := by
  decide

theorem load_from_file_filter (key : List Nat) :
    ∀ (lines : List (List Nat)) (m : Entries),
      load_from_file lines key m = load_from_file (lines.filter wellFormedLine) key m := by
  intro lines
  induction lines with
  | nil => intro m; rfl
  | cons line rest ih =>
    intro m
    by_cases h3 : (splitByte 124 line).length = 3
    · have hw : wellFormedLine line = true := by
        simp [wellFormedLine, h3]
      rw [List.filter_cons_of_pos hw]
      simp only [load_from_file, if_pos h3]
      split
      · rfl
      · exact ih _
    · have hw : ¬ wellFormedLine line = true := by
        simp [wellFormedLine, h3]
      rw [List.filter_cons_of_neg hw]
      simp only [load_from_file, if_neg h3]
      exact ih m

/-- C5: `load_from_file` treats a line that does not split on `|` into
exactly three fields as if it were absent — the load result (including
whether it fails) is that of the well-formed lines alone, so such a line
contributes no entry; and a file of only malformed lines loads successfully
and leaves the store unchanged. -/
theorem claim_C5_malformed_lines_skipped (lines : List (List Nat)) (key : List Nat)
    (m : Entries) :
    load_from_file lines key m = load_from_file (lines.filter wellFormedLine) key m ∧
    ((∀ l ∈ lines, wellFormedLine l = false) → load_from_file lines key m = some m) := by
  refine ⟨load_from_file_filter key lines m, fun hall => ?_⟩
  rw [load_from_file_filter key lines m]
  have hnil : lines.filter wellFormedLine = [] := by
    apply List.filter_eq_nil_iff.mpr
    intro a ha
    simp [hall a ha]
  rw [hnil]
  rfl

/-- Witness for C5: a single two-field line (missing password) is skipped
and the load returns the starting store unchanged. -/
theorem claim_C5_witness :
    load_from_file [strBytes "github|alice"] (strBytes "k") [] = some [] :=
  (claim_C5_malformed_lines_skipped [strBytes "github|alice"] (strBytes "k") []).2
    (by decide)

/-- C6: `verify_master_password` returns true exactly when the digest of the
supplied passphrase equals the stored digest — so it accepts a passphrase
whose hash matches and rejects every passphrase whose hash differs. -/
theorem claim_C6_verify_iff_digest_eq (mgr : PasswordManager) (p : List Nat) :
    verify_master_password mgr p = true ↔ hash_password p = mgr.master_password_hash := by
  simp [verify_master_password]

theorem countKey_cons (k1 : List Nat) (v1 : PasswordEntry) (rest : Entries)
    (k : List Nat) :
    countKey ((k1, v1) :: rest) k = (if k1 = k then 1 else 0) + countKey rest k := by
  unfold countKey
  rw [List.filter_cons]
  by_cases h : k1 = k
  · simp [h]
    omega
  · simp [h]

theorem lookupEntry_insertEntry_self (m : Entries) (k : List Nat) (v : PasswordEntry) :
    lookupEntry (insertEntry m k v) k = some v := by
  induction m with
  | nil => simp [insertEntry, lookupEntry]
  | cons p rest ih =>
    obtain ⟨k1, v1⟩ := p
    by_cases h : k1 = k
    · simp [insertEntry, lookupEntry, h]
    · simp [insertEntry, lookupEntry, h, ih]

theorem lookupEntry_insertEntry_ne (m : Entries) (k : List Nat) (v : PasswordEntry)
    (s : List Nat) (h : k ≠ s) :
    lookupEntry (insertEntry m k v) s = lookupEntry m s := by
  induction m with
  | nil => simp [insertEntry, lookupEntry, h]
  | cons p rest ih =>
    obtain ⟨k1, v1⟩ := p
    by_cases hk1 : k1 = k
    · subst hk1
      simp [insertEntry, lookupEntry, h, ih]
    · simp [insertEntry, lookupEntry, hk1, ih]

theorem countKey_insertEntry (m : Entries) (k : List Nat) (v : PasswordEntry)
    (h : countKey m k ≤ 1) : countKey (insertEntry m k v) k = 1 := by
  induction m with
  | nil => simp [insertEntry, countKey_cons, countKey]
  | cons p rest ih =>
    obtain ⟨k1, v1⟩ := p
    rw [countKey_cons] at h
    by_cases hk1 : k1 = k
    · rw [if_pos hk1] at h
      have h0 : countKey rest k = 0 := by omega
      show countKey (if k1 = k then (k, v) :: rest else (k1, v1) :: insertEntry rest k v) k = 1
      rw [if_pos hk1, countKey_cons, if_pos rfl, h0]
    · rw [if_neg hk1] at h
      show countKey (if k1 = k then (k, v) :: rest else (k1, v1) :: insertEntry rest k v) k = 1
      rw [if_neg hk1, countKey_cons, if_neg hk1, ih (by omega)]

/-- C7: `add_entry` under an existing service key overwrites the prior
record (last-write-wins): in any store binding the service at most once (the
`HashMap` invariant), inserting a service twice leaves exactly one record
for it, holding the last-written username and password. -/
theorem claim_C7_add_entry_overwrites (m : Entries) (s u1 p1 u2 p2 : List Nat)
    (hm : countKey m s ≤ 1) :
    lookupEntry (add_entry (add_entry m s u1 p1) s u2 p2) s = some ⟨s, u2, p2⟩ ∧
    countKey (add_entry (add_entry m s u1 p1) s u2 p2) s = 1 := by
  constructor
  · exact lookupEntry_insertEntry_self _ _ _
  · unfold add_entry
    apply countKey_insertEntry
    rw [countKey_insertEntry _ _ _ hm]

/-- Witness for C7 at the empty store, service `"github"`, usernames `"a"`
then `"b"`. -/
theorem claim_C7_witness :
    lookupEntry (add_entry (add_entry [] (strBytes "github") (strBytes "a")
        (strBytes "p1")) (strBytes "github") (strBytes "b") (strBytes "p2"))
      (strBytes "github")
      = some ⟨strBytes "github", strBytes "b", strBytes "p2"⟩ ∧
    countKey (add_entry (add_entry [] (strBytes "github") (strBytes "a")
        (strBytes "p1")) (strBytes "github") (strBytes "b") (strBytes "p2"))
      (strBytes "github") = 1 :=
  claim_C7_add_entry_overwrites [] (strBytes "github") (strBytes "a")
    (strBytes "p1") (strBytes "b") (strBytes "p2") (by decide)

/-- C8: `generate_password` returns exactly `length` characters, each drawn
from the fixed alphabet `CHARSET`, for every outcome of the random number
generator (embedded as the sequence of its in-range draws). -/
theorem claim_C8_generate_password_shape (length : Nat) (draws : Nat → Nat)
    (hdraws : ∀ i, draws i < CHARSET.length) :
    (generate_password length draws).length = length ∧
    ∀ c ∈ generate_password length draws, c ∈ CHARSET := by
  constructor
  · simp [generate_password]
  · intro c hc
    simp only [generate_password, List.mem_map, List.mem_range] at hc
    obtain ⟨i, _, rfl⟩ := hc
    rw [List.getD_eq_getElem _ _ (hdraws i)]
    exact List.getElem_mem _

/-- Witness for C8 at length 16 and the constant-zero generator. -/
theorem claim_C8_witness :
    (generate_password 16 (fun _ => 0)).length = 16 ∧
    ∀ c ∈ generate_password 16 (fun _ => 0), c ∈ CHARSET :=
  claim_C8_generate_password_shape 16 (fun _ => 0)
    (fun i => by show 0 < CHARSET.length; decide)

/-- C9: the listing output is a function of the service keys and usernames
alone — two stores with the same services and usernames but any different
passwords produce identical `list_services` output, so no stored password
influences (or appears in) the listing. -/
theorem claim_C9_listing_ignores_passwords (m1 m2 : Entries)
    (h : m1.map (fun p => (p.1, p.2.username)) = m2.map (fun p => (p.1, p.2.username))) :
    list_services m1 = list_services m2 := by
  have hemp : m1.isEmpty = m2.isEmpty := by
    have hl : m1.length = m2.length := by
      simpa using congrArg List.length h
    rcases m1 with _ | ⟨q1, r1⟩ <;> rcases m2 with _ | ⟨q2, r2⟩ <;> simp_all
  have hline : ∀ m : Entries, m.map (fun p => p.1 ++ strBytes " - " ++ p.2.username)
      = (m.map (fun p => (p.1, p.2.username))).map (fun q => q.1 ++ strBytes " - " ++ q.2) := by
    intro m
    rw [List.map_map]
    rfl
  unfold list_services
  rw [hemp, hline, hline, h]

/-- Witness for C9: two single-entry stores differing only in the stored
password list the same. -/
theorem claim_C9_witness :
    list_services [(strBytes "github", ⟨strBytes "github", strBytes "alice",
        strBytes "pw1"⟩)]
      = list_services [(strBytes "github", ⟨strBytes "github", strBytes "alice",
        strBytes "pw2"⟩)] :=
  claim_C9_listing_ignores_passwords _ _ (by decide)

/-- C10: `load_from_file` only inserts records parsed from the file; it
never clears the map first.  Any service key that is not the first field of
a well-formed line of the file keeps exactly the binding it had before the
load. -/
theorem claim_C10_load_frame (lines : List (List Nat)) (key : List Nat)
    (m m2 : Entries) (s : List Nat)
    (hload : load_from_file lines key m = some m2)
    (hs : ∀ l ∈ lines, (splitByte 124 l).length = 3 → (splitByte 124 l).getD 0 [] ≠ s) :
    lookupEntry m2 s = lookupEntry m s := by
  induction lines generalizing m with
  | nil =>
    simp only [load_from_file, Option.some.injEq] at hload
    rw [hload]
  | cons line rest ih =>
    by_cases h3 : (splitByte 124 line).length = 3
    · simp only [load_from_file, if_pos h3] at hload
      rcases hd : simple_decrypt ((splitByte 124 line).getD 2 []) key with _ | pw
      · rw [hd] at hload
        exact absurd hload (by simp)
      · rw [hd] at hload
        have hne : (splitByte 124 line).getD 0 [] ≠ s :=
          hs line (List.mem_cons_self _ _) h3
        rw [ih _ hload (fun l hl => hs l (List.mem_cons_of_mem _ hl))]
        exact lookupEntry_insertEntry_ne m _ _ s hne
    · simp only [load_from_file, if_neg h3] at hload
      exact ih _ hload (fun l hl => hs l (List.mem_cons_of_mem _ hl))

/-- Witness for C10: loading a file with one well-formed line for service
`"a"` leaves the pre-existing binding of service `"z"` untouched. -/
theorem claim_C10_witness :
    lookupEntry [(strBytes "z", ⟨strBytes "z", strBytes "u", strBytes "p"⟩),
        (strBytes "a", ⟨strBytes "a", strBytes "b", [107]⟩)] (strBytes "z")
      = lookupEntry [(strBytes "z", ⟨strBytes "z", strBytes "u", strBytes "p"⟩)]
        (strBytes "z") :=
  claim_C10_load_frame [strBytes "a|b|00"] (strBytes "k")
    [(strBytes "z", ⟨strBytes "z", strBytes "u", strBytes "p"⟩)]
    [(strBytes "z", ⟨strBytes "z", strBytes "u", strBytes "p"⟩),
      (strBytes "a", ⟨strBytes "a", strBytes "b", [107]⟩)]
    (strBytes "z") (by decide) (by decide)

end PasswordVault
